import Mathlib

/-!
# Verification of the probfit model-composition and cost-function core

The repository ships only a tutorial notebook (`tutorial/tutorial.py`) and a
test file (`test/testoneshot.py`); the library code they exercise is not part
of the source tree.  The definitions below therefore embed the library
operations as described by the specification (each such definition says so in
its doc comment), using exact rational arithmetic `ℚ` for the quadrature and
composition layer and real arithmetic `ℝ` where a logarithm is required.

A model is a callable of one independent variable and a list of shape
parameters; it may carry an analytic-integral override.
-/

/-- Modelled from the spec: the `Model` data type of the missing probfit
library code (spec §3).  A model has an ordered parameter signature (the
independent variable excluded), an evaluation function taking the independent
variable and the parameter vector, and an optional analytic-integral override
`integrate (bound, node_count, params)` (spec §4.2, §6). -/
structure Model where
  sig : List String
  eval : ℚ → List ℚ → ℚ
  integrate : Option ((ℚ × ℚ) → ℕ → List ℚ → ℚ)

/-- Modelled from the spec: node-count rounding of the missing quadrature
engine.  `node_count` must be positive and is rounded up to the nearest value
compatible with the composite Simpson 3/8 rule, i.e. the nearest positive
multiple of 3 (spec §4.2). -/
def roundNodeCount (n : ℕ) : ℕ :=
  3 * ((max n 1 + 2) / 3)

/-- Modelled from the spec: the fixed-order composite quadrature rule of the
missing numeric-integration engine (spec §4.2; the tutorial states the
Simpson 3/8 rule is used when no analytic override is available).  The bound
`(a, b)` is split into `roundNodeCount nint` subintervals and each group of
three consecutive subintervals contributes `3h/8 (f x0 + 3 f x1 + 3 f x2 + f x3)`. -/
def simpson38 (f : ℚ → ℚ) (a b : ℚ) (nint : ℕ) : ℚ :=
  3 * ((b - a) / (roundNodeCount nint : ℚ)) / 8 *
    (Finset.range (roundNodeCount nint / 3)).sum (fun k =>
      f (a + (3 * k : ℕ) * ((b - a) / (roundNodeCount nint : ℚ)))
        + 3 * f (a + (3 * k + 1 : ℕ) * ((b - a) / (roundNodeCount nint : ℚ)))
        + 3 * f (a + (3 * k + 2 : ℕ) * ((b - a) / (roundNodeCount nint : ℚ)))
        + f (a + (3 * k + 3 : ℕ) * ((b - a) / (roundNodeCount nint : ℚ))))

/-- Modelled from the spec: `integrate1d(model, bound, node_count, params)` of
the missing library code (spec §4.2).  If the model exposes an analytic
integral override it is called directly with `(bound, node_count, params)` and
its result is returned unvalidated; otherwise the composite Simpson 3/8
quadrature is applied. -/
def integrate1d (m : Model) (bound : ℚ × ℚ) (n : ℕ) (ps : List ℚ) : ℚ :=
  match m.integrate with
  | some g => g bound n ps
  | none => simpson38 (fun x => m.eval x ps) bound.1 bound.2 n

/-- Modelled from the spec: the `Normalized` functor of the missing library
code (spec §4.3).  The returned model keeps the base signature and evaluates
to `model(x, *params) / integrate1d(model, bound, node_count, params)`; the
returned model carries no analytic override of its own. -/
def Normalize (m : Model) (bound : ℚ × ℚ) (n : ℕ) : Model :=
  { sig := m.sig
    eval := fun x ps => m.eval x ps / integrate1d m bound n ps
    integrate := none }

/-- Modelled from the spec: the `Extended` functor of the missing library code
(spec §4.3).  The returned model appends `extname` as a single new last
parameter and evaluates to `N * model(x, *params)` where `N` is the value
bound to that appended parameter (the last entry of the parameter vector). -/
def Extend (m : Model) (extname : String) : Model :=
  { sig := m.sig ++ [extname]
    eval := fun x ps => ps.getLastD 0 * m.eval x ps.dropLast
    integrate := none }

/-- Modelled from the spec: the `rename` operation of the missing library code
(spec §4.1; tutorial usage `rename(gaussian, ['x', 'mu1', 'sigma1'])`).  The
new-name list includes a new name for the independent variable first, so its
length must equal the model's full argument count, i.e. signature length plus
one; on a length mismatch the operation fails.  The renamed model keeps the
evaluation function and the analytic override and its signature is the tail of
the new-name list. -/
def rename (m : Model) (names : List String) : Option Model :=
  if names.length = m.sig.length + 1 then
    some { m with sig := names.tail }
  else
    none

/-- First-occurrence duplicate removal on name lists: keep the first
occurrence of each name and drop the later ones. -/
def dedupFirst : List String → List String
  | [] => []
  | a :: l => a :: dedupFirst (l.filter (fun b => b ≠ a))
termination_by l => l.length
decreasing_by
  simp only [List.length_cons]
  exact Nat.lt_succ_of_le (List.length_filter_le _ _)

/-- Modelled from the spec: the signature `merge` of the missing library code
(spec §4.1).  The merged list concatenates the first occurrences in the order
encountered across the inputs, removing later duplicates by name. -/
def mergeSig (A B : List String) : List String :=
  dedupFirst (A ++ B)

theorem dedupFirst_cons (a : String) (l : List String) :
    dedupFirst (a :: l) = a :: dedupFirst (l.filter (fun b => b ≠ a)) := by
  rw [dedupFirst]

theorem mem_dedupFirst (x : String) (l : List String) :
    x ∈ dedupFirst l ↔ x ∈ l := by
  induction l using dedupFirst.induct with
  | case1 => simp [dedupFirst]
  | case2 a l ih =>
    rw [dedupFirst_cons]
    by_cases hxa : x = a
    · subst hxa; simp
    · simp only [List.mem_cons, hxa, false_or, ih, List.mem_filter]
      simp [hxa]

theorem filter_ne_of_false (p : String → Bool) (a : String) (ha : p a = false)
    (l : List String) :
    (l.filter p).filter (fun b => b ≠ a) = l.filter p := by
  apply List.filter_eq_self.mpr
  intro b hb
  rw [List.mem_filter] at hb
  simp only [ne_eq, decide_eq_true_eq]
  intro hba
  rw [hba, ha] at hb
  exact Bool.noConfusion hb.2

theorem filter_comm2 (p q : String → Bool) (l : List String) :
    (l.filter p).filter q = (l.filter q).filter p := by
  rw [List.filter_filter, List.filter_filter]
  congr 1
  funext b
  exact Bool.and_comm _ _

theorem filter_idem (p : String → Bool) (l : List String) :
    (l.filter p).filter p = l.filter p := by
  rw [List.filter_filter]
  congr 1
  funext b
  exact Bool.and_self _

theorem dedupFirst_filter (p : String → Bool) (l : List String) :
    (dedupFirst l).filter p = dedupFirst (l.filter p) := by
  induction l using dedupFirst.induct with
  | case1 => simp [dedupFirst]
  | case2 a l ih =>
    by_cases hpa : p a = true
    · rw [dedupFirst_cons, List.filter_cons, List.filter_cons, if_pos hpa,
        if_pos hpa, dedupFirst_cons, ih, filter_comm2]
    · have hpa' : p a = false := Bool.eq_false_iff.mpr hpa
      rw [dedupFirst_cons, List.filter_cons, List.filter_cons, if_neg hpa,
        if_neg hpa, ih, filter_comm2, filter_ne_of_false p a hpa' l]

theorem dedupFirst_idem (l : List String) :
    dedupFirst (dedupFirst l) = dedupFirst l := by
  induction l using dedupFirst.induct with
  | case1 => simp [dedupFirst]
  | case2 a l ih =>
    rw [dedupFirst_cons, dedupFirst_cons, dedupFirst_filter, filter_idem, ih]

theorem nodup_dedupFirst (l : List String) : (dedupFirst l).Nodup := by
  induction l using dedupFirst.induct with
  | case1 => simp [dedupFirst]
  | case2 a l ih =>
    rw [dedupFirst_cons]
    refine List.Nodup.cons ?_ ih
    intro hmem
    rw [mem_dedupFirst, List.mem_filter] at hmem
    simp at hmem

theorem dedupFirst_append_left (l m : List String) :
    dedupFirst (dedupFirst l ++ m) = dedupFirst (l ++ m) := by
  induction l using dedupFirst.induct generalizing m with
  | case1 => simp [dedupFirst]
  | case2 a l ih =>
    rw [dedupFirst_cons, List.cons_append, List.cons_append,
      dedupFirst_cons, dedupFirst_cons, List.filter_append, List.filter_append,
      dedupFirst_filter, filter_idem, ih]

theorem dedupFirst_append_right (l m : List String) :
    dedupFirst (l ++ dedupFirst m) = dedupFirst (l ++ m) := by
  induction l using dedupFirst.induct generalizing m with
  | case1 => simpa using dedupFirst_idem m
  | case2 a l ih =>
    rw [List.cons_append, List.cons_append, dedupFirst_cons, dedupFirst_cons,
      List.filter_append, List.filter_append, dedupFirst_filter, ih]

/-- C3: `merge` keeps the first occurrence of each name in the order
encountered and drops later duplicates; it is associative, the result is
duplicate-free, and the set of names in the merged result does not depend on
the merge order. -/
theorem mergeSig_assoc (A B C : List String) :
    mergeSig (mergeSig A B) C = mergeSig A (mergeSig B C) ∧
    (mergeSig (mergeSig A B) C).Nodup ∧
    (∀ x, x ∈ mergeSig (mergeSig A B) C ↔ x ∈ A ∨ x ∈ B ∨ x ∈ C) := by
  refine ⟨?_, nodup_dedupFirst _, ?_⟩
  · show dedupFirst (dedupFirst (A ++ B) ++ C)
        = dedupFirst (A ++ dedupFirst (B ++ C))
    rw [dedupFirst_append_left, dedupFirst_append_right, List.append_assoc]
  · intro x
    show x ∈ dedupFirst (dedupFirst (A ++ B) ++ C) ↔ _
    rw [mem_dedupFirst, List.mem_append, mem_dedupFirst]
    simp [or_assoc]

/-- The straight-line model `line(x, m, c) = m * x + c` from the tutorial,
with parameter signature `["m", "c"]` and no analytic override. -/
def lineModel : Model :=
  { sig := ["m", "c"]
    eval := fun x ps => ps.getD 0 0 * x + ps.getD 1 0
    integrate := none }

/-- The deliberately wrong analytic override from the tutorial
(`wrong_line_integrate`): twice the true integral of the line. -/
def wrongLineIntegrate : (ℚ × ℚ) → ℕ → List ℚ → ℚ :=
  fun bound _ ps =>
    2 * (ps.getD 0 0 * (bound.2 ^ 2 / 2 - bound.1 ^ 2 / 2)
      + ps.getD 1 0 * (bound.2 - bound.1))

/-- The line model with the wrong analytic override attached, exactly as the
tutorial builds it via `line.integrate = wrong_line_integrate`. -/
def lineModelWrong : Model :=
  { lineModel with integrate := some wrongLineIntegrate }

/-- C4: `Extend` returns a model whose signature is the base signature with
`extname` appended as a single new last name, and whose value at `x` on a
parameter vector ending in `N` equals `N * model(x, *params)`. -/
theorem Extend_sig_eval (m : Model) (extname : String) (x N : ℚ) (ps : List ℚ) :
    (Extend m extname).sig = m.sig ++ [extname] ∧
    (Extend m extname).eval x (ps ++ [N]) = N * m.eval x ps := by
  refine ⟨rfl, ?_⟩
  show (ps ++ [N]).getLastD 0 * m.eval x (ps ++ [N]).dropLast = N * m.eval x ps
  rw [List.getLastD_concat, List.dropLast_concat]

/-- C8: a renamed model evaluates to exactly the same numeric value as the
original model at every input and parameter vector; `rename` changes only the
parameter signature. -/
theorem rename_preserves_eval (m : Model) (names : List String) (m' : Model)
    (h : rename m names = some m') (x : ℚ) (ps : List ℚ) :
    m'.eval x ps = m.eval x ps := by
  by_cases hlen : names.length = m.sig.length + 1
  · rw [rename, if_pos hlen] at h
    cases h
    rfl
  · rw [rename, if_neg hlen] at h
    exact Option.noConfusion h

theorem rename_preserves_eval_witness :
    (Model.mk ["slope", "intercept"] lineModel.eval lineModel.integrate).eval 2 [3, 4]
      = lineModel.eval 2 [3, 4] :=
  rename_preserves_eval lineModel ["x", "slope", "intercept"]
    (Model.mk ["slope", "intercept"] lineModel.eval lineModel.integrate) rfl 2 [3, 4]

/-- C9: `rename` succeeds exactly when the new-name list length equals the
model's full argument count (signature length plus one for the independent
variable, whose new name comes first), and the renamed model's signature is
the tail of the new-name list. -/
theorem rename_sig_spec (m : Model) (names : List String) :
    ((rename m names).isSome ↔ names.length = m.sig.length + 1) ∧
    ∀ m', rename m names = some m' → m'.sig = names.tail := by
  constructor
  · by_cases hlen : names.length = m.sig.length + 1
    · rw [rename, if_pos hlen]
      simp [hlen]
    · rw [rename, if_neg hlen]
      simp [hlen]
  · intro m' h
    by_cases hlen : names.length = m.sig.length + 1
    · rw [rename, if_pos hlen] at h
      cases h
      rfl
    · rw [rename, if_neg hlen] at h
      exact Option.noConfusion h

theorem rename_sig_spec_witness :
    (rename lineModel ["x", "a", "b"]).isSome :=
  (rename_sig_spec lineModel ["x", "a", "b"]).1.mpr rfl

/-- C5: with an analytic-integral override present, `integrate1d` returns
exactly the override's value at `(bound, node_count, params)`, irrespective of
the model's evaluation function (no quadrature, no validation); the quadrature
rule is applied only when no override is present. -/
theorem integrate1d_override (m : Model) (g : (ℚ × ℚ) → ℕ → List ℚ → ℚ)
    (bound : ℚ × ℚ) (n : ℕ) (ps : List ℚ) (h : m.integrate = some g) :
    integrate1d m bound n ps = g bound n ps ∧
    (∀ ev, integrate1d (Model.mk m.sig ev m.integrate) bound n ps = g bound n ps) ∧
    (∀ m2 : Model, m2.integrate = none →
      integrate1d m2 bound n ps
        = simpson38 (fun x => m2.eval x ps) bound.1 bound.2 n) := by
  refine ⟨?_, ?_, ?_⟩
  · simp only [integrate1d, h]
  · intro ev
    simp only [integrate1d, h]
  · intro m2 h2
    simp only [integrate1d, h2]

theorem integrate1d_override_witness :
    integrate1d lineModelWrong (0, 1) 10 [1, 2] = wrongLineIntegrate (0, 1) 10 [1, 2] :=
  (integrate1d_override lineModelWrong wrongLineIntegrate (0, 1) 10 [1, 2] rfl).1

/-- Modelled from the spec: the four cost-function evaluator classes of the
missing library code (spec §4.4), each binding a model to a dataset and
evaluation options. -/
inductive CostFunction where
  | chi2Regression (model : Model) (x y err : List ℚ)
  | binnedChi2 (model : Model) (data : List ℚ) (bins : ℕ) (bound : ℚ × ℚ)
  | binnedLH (model : Model) (data : List ℚ) (bins : ℕ) (bound : ℚ × ℚ)
      (extended : Bool) (weights : List ℚ) (useW2 : Bool)
  | unbinnedLH (model : Model) (data : List ℚ) (weights : List ℚ) (extended : Bool)

/-- Chi-square-like evaluators are `Chi2Regression` and `BinnedChi2`;
`BinnedLH` and `UnbinnedLH` are likelihood-like (spec §3, §4.4). -/
def CostFunction.chiSquareLike : CostFunction → Bool
  | .chi2Regression .. => true
  | .binnedChi2 .. => true
  | .binnedLH .. => false
  | .unbinnedLH .. => false

/-- Modelled from the spec: `get_errordef` of the missing library code
(tutorial: `Chi2Regression.get_errordef()` and `BinnedChi2.get_errordef()`
return 1, `BinnedLH.get_errordef()` and `UnbinnedLH.get_errordef()` return
0.5; spec §3/§4.4 error-definition constant). -/
def CostFunction.get_errordef : CostFunction → ℚ
  | .chi2Regression .. => 1
  | .binnedChi2 .. => 1
  | .binnedLH .. => 1 / 2
  | .unbinnedLH .. => 1 / 2

/-- C2: every cost-function evaluator exposes an error-definition constant
equal to 1.0 when it is chi-square-like (`Chi2Regression`, `BinnedChi2`) and
0.5 when it is likelihood-like (`BinnedLH`, `UnbinnedLH`). -/
theorem errordef_spec (c : CostFunction) :
    c.get_errordef = if c.chiSquareLike then 1 else 1 / 2 := by
  cases c <;> rfl

theorem simpson38_mul (f : ℚ → ℚ) (c a b : ℚ) (n : ℕ) :
    simpson38 (fun x => f x * c) a b n = simpson38 f a b n * c := by
  simp only [simpson38]
  rw [mul_assoc, Finset.sum_mul]
  congr 1
  apply Finset.sum_congr rfl
  intro k _
  ring

theorem simpson38_div (f : ℚ → ℚ) (c a b : ℚ) (n : ℕ) :
    simpson38 (fun x => f x / c) a b n = simpson38 f a b n / c := by
  simp only [div_eq_mul_inv]
  exact simpson38_mul f c⁻¹ a b n

/-- C1 (amended): for a model without an analytic-integral override and with a
nonzero quadrature integral over the bound at the given parameters, the
normalized model evaluates at `x` to
`model(x, *params) / integrate1d(model, bound, n, params)` and integrating it
over the same bound with the same node count yields exactly 1. -/
theorem Normalize_round_trip (m : Model) (bound : ℚ × ℚ) (n : ℕ) (ps : List ℚ)
    (hnone : m.integrate = none)
    (hI : integrate1d m bound n ps ≠ 0) :
    (∀ x, (Normalize m bound n).eval x ps
        = m.eval x ps / integrate1d m bound n ps) ∧
    integrate1d (Normalize m bound n) bound n ps = 1 := by
  refine ⟨fun x => rfl, ?_⟩
  have hquad : integrate1d m bound n ps
      = simpson38 (fun x => m.eval x ps) bound.1 bound.2 n := by
    simp only [integrate1d, hnone]
  show simpson38 (fun x => m.eval x ps / integrate1d m bound n ps)
      bound.1 bound.2 n = 1
  calc simpson38 (fun x => m.eval x ps / integrate1d m bound n ps)
        bound.1 bound.2 n
      = simpson38 (fun x => m.eval x ps) bound.1 bound.2 n
          / integrate1d m bound n ps :=
        simpson38_div (fun x => m.eval x ps) (integrate1d m bound n ps)
          bound.1 bound.2 n
    _ = 1 := by rw [← hquad]; exact div_self hI

theorem Normalize_round_trip_witness :
    (∀ x : ℚ, (Normalize lineModel (0, 1) 10).eval x [1, 2]
        = lineModel.eval x [1, 2] / integrate1d lineModel (0, 1) 10 [1, 2]) ∧
    integrate1d (Normalize lineModel (0, 1) 10) (0, 1) 10 [1, 2] = 1 :=
  Normalize_round_trip lineModel (0, 1) 10 [1, 2] rfl (by
    show simpson38 (fun x => lineModel.eval x [1, 2]) (0, 1).1 (0, 1).2 10 ≠ 0
    norm_num [simpson38, roundNodeCount, lineModel, Finset.sum_range_succ])

/-- C1 counterexample: the tutorial's line model carrying the deliberately
wrong analytic override integrates, after normalization, to 1/2 rather than 1
over the same bound with the same node count, because `Normalized` divides by
the unvalidated override value while the round trip integrates by quadrature. -/
theorem Normalize_round_trip_counterexample :
    integrate1d (Normalize lineModelWrong (0, 1) 10) (0, 1) 10 [1, 2] ≠ 1 := by
  have hover : integrate1d lineModelWrong (0, 1) 10 [1, 2] = 5 := by
    show wrongLineIntegrate (0, 1) 10 [1, 2] = 5
    norm_num [wrongLineIntegrate]
  show simpson38
      (fun x => lineModelWrong.eval x [1, 2]
        / integrate1d lineModelWrong (0, 1) 10 [1, 2]) (0, 1).1 (0, 1).2 10 ≠ 1
  rw [hover]
  norm_num [simpson38, roundNodeCount, lineModelWrong, lineModel,
    Finset.sum_range_succ]

/-- Modelled from the spec: one bin's contribution to the extended binned
Poisson log-likelihood of the missing `BinnedLH` code (spec §4.4).  The term
is `expected - observed * log(expected)`; for a zero-content bin the logarithm
is replaced by the safe floor value and the bin raises a warning-level flag.
The logarithm argument is partial: `none` models a non-finite result. -/
def binnedLHTerm (lg : ℚ → Option ℚ) (floor : ℚ) (expected observed : ℚ) :
    Option (ℚ × Bool) :=
  if observed = 0 then some (expected - observed * floor, true)
  else (lg expected).map (fun v => (expected - observed * v, false))

/-- Modelled from the spec: evaluation of the extended binned likelihood of
the missing `BinnedLH` code over a list of `(expected, observed)` bins,
accumulating the per-bin terms and OR-ing the warning flags; a `none` result
models a non-finite objective. -/
def binnedLHEval (lg : ℚ → Option ℚ) (floor : ℚ) :
    List (ℚ × ℚ) → Option (ℚ × Bool)
  | [] => some (0, false)
  | b :: bs =>
    match binnedLHTerm lg floor b.1 b.2, binnedLHEval lg floor bs with
    | some (t, w), some (s, w2) => some (t + s, w || w2)
    | _, _ => none

theorem binnedLHEval_total (lg : ℚ → Option ℚ) (floor : ℚ)
    (bins : List (ℚ × ℚ))
    (hfin : ∀ b ∈ bins, b.2 ≠ 0 → (lg b.1).isSome) :
    ∃ v w, binnedLHEval lg floor bins = some (v, w) := by
  induction bins with
  | nil => exact ⟨0, false, rfl⟩
  | cons b bs ih =>
    obtain ⟨v, w, hvw⟩ := ih (fun c hc h => hfin c (List.mem_cons_of_mem _ hc) h)
    by_cases hb : b.2 = 0
    · refine ⟨b.1 - b.2 * floor + v, true || w, ?_⟩
      simp [binnedLHEval, binnedLHTerm, hb, hvw]
    · have hsome := hfin b (List.mem_cons_self _ _) hb
      obtain ⟨u, hu⟩ := Option.isSome_iff_exists.mp hsome
      refine ⟨b.1 - b.2 * u + v, false || w, ?_⟩
      simp [binnedLHEval, binnedLHTerm, hb, hu, hvw]

/-- C6: if every bin with nonzero observed content has a finite logarithm of
its expected content, and some bin has zero observed content and positive
expected content, the binned-likelihood evaluation still returns a value (the
safe floor replaces the logarithm for the zero bin) and raises the
warning-level flag, instead of producing a non-finite objective or failing. -/
theorem binnedLH_zero_bin (lg : ℚ → Option ℚ) (floor : ℚ)
    (bins : List (ℚ × ℚ))
    (hfin : ∀ b ∈ bins, b.2 ≠ 0 → (lg b.1).isSome)
    (hzero : ∃ b ∈ bins, b.2 = 0 ∧ 0 < b.1) :
    ∃ v, binnedLHEval lg floor bins = some (v, true) := by
  induction bins with
  | nil => simp at hzero
  | cons b bs ih =>
    obtain ⟨c, hc, hc0, hcpos⟩ := hzero
    rcases List.mem_cons.mp hc with hcb | hcbs
    · subst hcb
      obtain ⟨v, w, hvw⟩ :=
        binnedLHEval_total lg floor bs
          (fun d hd h => hfin d (List.mem_cons_of_mem _ hd) h)
      refine ⟨c.1 - c.2 * floor + v, ?_⟩
      simp [binnedLHEval, binnedLHTerm, hc0, hvw]
    · obtain ⟨v, hv⟩ :=
        ih (fun d hd h => hfin d (List.mem_cons_of_mem _ hd) h)
          ⟨c, hcbs, hc0, hcpos⟩
      by_cases hb : b.2 = 0
      · refine ⟨b.1 - b.2 * floor + v, ?_⟩
        simp [binnedLHEval, binnedLHTerm, hb, hv]
      · have hsome := hfin b (List.mem_cons_self _ _) hb
        obtain ⟨u, hu⟩ := Option.isSome_iff_exists.mp hsome
        refine ⟨b.1 - b.2 * u + v, ?_⟩
        simp [binnedLHEval, binnedLHTerm, hb, hu, hv]

theorem binnedLH_zero_bin_witness :
    ∃ v, binnedLHEval (fun x => if 0 < x then some 0 else none) (-46)
        [(1, 0), (2, 3)] = some (v, true) :=
  binnedLH_zero_bin (fun x => if 0 < x then some 0 else none) (-46)
    [(1, 0), (2, 3)]
    (by
      intro b hb h
      rcases List.mem_cons.mp hb with h1 | h2
      · rw [h1] at h; exact absurd rfl h
      · rw [List.mem_singleton] at h2
        rw [h2]
        norm_num)
    ⟨(1, 0), by norm_num⟩

/-- Modelled from the spec: the extended binned Poisson log-likelihood of the
missing `BinnedLH` code, viewed as a function of the yield parameter of an
`Extended` model (spec §4.4; test `test_extended_binlh_ww`).  Each bin carries
the base model's bin probability `q` and the weighted observed content `w`
(the sum of the event weights falling in the bin); the expected content is
`N * q`, so the per-bin term is `N q - w log(N q)` and the objective is their
sum (the overall sign-convention factor is a positive constant and does not
move the minimum). -/
noncomputable def yieldObjective (lg : ℝ → ℝ) (bins : List (ℝ × ℝ)) (N : ℝ) : ℝ :=
  (bins.map (fun b => N * b.1 - b.2 * lg (N * b.1))).sum

theorem yieldObjective_sub (bins : List (ℝ × ℝ)) (N W : ℝ)
    (hq : ∀ b ∈ bins, 0 < b.1) (hN : 0 < N) (hW : 0 < W) :
    yieldObjective Real.log bins N - yieldObjective Real.log bins W
      = (N - W) * (bins.map Prod.fst).sum
        - (Real.log N - Real.log W) * (bins.map Prod.snd).sum := by
  induction bins with
  | nil => simp [yieldObjective]
  | cons b bs ih =>
    have hb : 0 < b.1 := hq b (List.mem_cons_self _ _)
    have ihs := ih (fun c hc => hq c (List.mem_cons_of_mem _ hc))
    simp only [yieldObjective, List.map_cons, List.sum_cons] at ihs ⊢
    rw [Real.log_mul hN.ne' hb.ne', Real.log_mul hW.ne' hb.ne']
    linear_combination ihs

/-- C10: in an extended binned-likelihood fit with per-event weights, the
objective as a function of the yield parameter of the `Extended` model is
minimized at the sum of the event weights (not the raw event count): when the
bin probabilities sum to 1 and the weighted bin contents sum to `W`, the
objective at yield `W` is no larger than at any other positive yield; so
20000 events of uniform weight 0.1 give a fitted yield of 2000. -/
theorem yieldObjective_min_at_weight_sum (bins : List (ℝ × ℝ)) (N W : ℝ)
    (hq : ∀ b ∈ bins, 0 < b.1)
    (hqsum : (bins.map Prod.fst).sum = 1)
    (hWsum : (bins.map Prod.snd).sum = W)
    (hW : 0 < W) (hN : 0 < N) :
    yieldObjective Real.log bins W ≤ yieldObjective Real.log bins N := by
  have hsub := yieldObjective_sub bins N W hq hN hW
  rw [hqsum, hWsum, mul_one] at hsub
  have hlog : Real.log N - Real.log W = Real.log (N / W) :=
    (Real.log_div hN.ne' hW.ne').symm
  rw [hlog] at hsub
  have hle : Real.log (N / W) ≤ N / W - 1 :=
    Real.log_le_sub_one_of_pos (div_pos hN hW)
  have hmul : W * Real.log (N / W) ≤ W * (N / W - 1) :=
    mul_le_mul_of_nonneg_left hle hW.le
  have hdiv : W * (N / W - 1) = N - W := by
    field_simp
  have hkey : Real.log (N / W) * W ≤ N - W := by
    rw [mul_comm]
    rw [hdiv] at hmul
    exact hmul
  linarith [hsub, hkey]

theorem yieldObjective_min_witness :
    yieldObjective Real.log [((1 : ℝ), 2000)] 2000
      ≤ yieldObjective Real.log [((1 : ℝ), 2000)] 1000 :=
  yieldObjective_min_at_weight_sum [((1 : ℝ), 2000)] 1000 2000
    (by
      intro b hb
      rw [List.mem_singleton] at hb
      rw [hb]
      norm_num)
    (by norm_num) (by norm_num) (by norm_num) (by norm_num)
